import Mathlib

/-!
Verification of `simcache.py`, an E20 machine simulator with a one- or
two-level set-associative cache using LRU replacement.

The Python code is shallowly embedded below.  Instructions are 16-bit
machine words; the Python code renders them as 16-character binary strings
(`bin(memory[pc])[2:].zfill(16)`) and slices them, so the string slice
`instr[a:b]` of the Python code corresponds here to the arithmetic field
extraction `(instr / 2 ^ (16 - b)) % 2 ^ (b - a)` on the word value.
Registers hold natural numbers (reduced modulo 2^16 on arithmetic writes,
exactly where the Python code applies `% 2**16`).  Python's floor division
`//` and remainder `%` on possibly-negative integers with positive divisors
coincide with `Int.ediv` and `Int.emod`, which is what the cache model uses.
-/

namespace Simcache

/-- Cache access classification, as produced by the main loop of
`simcache.py`: a load is classified `HIT` or `MISS`, a store is always
reported as the write event `SW`. -/
inductive Status where
  | HIT
  | MISS
  | SW
deriving DecidableEq, Repr

/-- The 7-bit immediate decode shared verbatim by `tworegImm`
(lines 67-70), `memImm` (lines 82-84) and `jeq` (lines 100-102) of
`simcache.py`: `imm = int(instr[10:], 2)` followed by
`if instr[9] == "1": imm -= 64`.  `instr[10:]` is the low 6 bits and
`instr[9]` is bit 6 of the word. -/
def imm7 (instr : Nat) : Int :=
  let imm : Int := (instr % 2 ^ 6 : Nat)
  if (instr / 2 ^ 6) % 2 = 1 then imm - 64 else imm

/-- Embeds `tworegImm` of `simcache.py` (lines 64-76): `slti` (prefix
`001`) and `addi` (prefix `111`).  Returns the updated registers and the
next pc. -/
def tworegImm (pc : Nat) (regs : List Nat) (instr : Nat) : List Nat × Nat :=
  let dstIndex := (instr / 2 ^ 7) % 2 ^ 3
  let srcIndex := (instr / 2 ^ 10) % 2 ^ 3
  let imm := imm7 instr
  let regs' :=
    if instr / 2 ^ 13 = 1 then
      if ((regs.getD srcIndex 0 : Int) < Int.emod imm (2 ^ 16)) then
        regs.set dstIndex 1
      else
        regs.set dstIndex 0
    else if instr / 2 ^ 13 = 7 then
      regs.set dstIndex (Int.toNat (Int.emod ((regs.getD srcIndex 0 : Int) + imm) (2 ^ 16)))
    else regs
  (regs', pc + 1)

/-- Embeds `jeq` of `simcache.py` (lines 97-106): returns `pc+1+rel_imm`
when the two compared registers are equal and `pc+1` otherwise (as an
integer, since the relative immediate may be negative). -/
def jeq (pc : Nat) (regs : List Nat) (instr : Nat) : Int :=
  let regA_Index := (instr / 2 ^ 10) % 2 ^ 3
  let regB_Index := (instr / 2 ^ 7) % 2 ^ 3
  let rel_imm := imm7 instr
  if regs.getD regA_Index 0 = regs.getD regB_Index 0 then (pc : Int) + 1 + rel_imm
  else (pc : Int) + 1

/-- Embeds `j_or_jal` of `simcache.py` (lines 112-117).  If the prefix is
`011` (a `jal`), register 7 receives `pc+1` first; the 13-bit immediate
`instr[3:]` is the jump target; the boolean is the halt flag, true exactly
when `pc == imm`.  Returns `(updated registers, imm, halt flag)`. -/
def j_or_jal (pc : Nat) (regs : List Nat) (instr : Nat) : List Nat × Nat × Bool :=
  let regs' := if instr / 2 ^ 13 = 3 then regs.set 7 (pc + 1) else regs
  let imm := instr % 2 ^ 13
  if pc = imm then (regs', imm, true) else (regs', imm, false)

/-- Embeds the `01`-prefix dispatch of the main loop (lines 296-300 of
`simcache.py`): call `j_or_jal`; on a raised halt flag the loop stops with
the pc unchanged, otherwise the returned immediate becomes the next pc.
Returns `(next pc, registers, halted)`. -/
def jumpDispatch (pc : Nat) (regs : List Nat) (instr : Nat) : Nat × List Nat × Bool :=
  let result := j_or_jal pc regs instr
  if result.2.2 then (pc, result.1, true) else (result.2.1, result.1, false)

/-- C9: every 7-bit immediate (slti/addi, lw/sw, jeq) is sign-extended by
subtracting 64 from the value of the low 6 bits when bit 6 is set, giving a
value in [-64, 63]; with bit 6 clear the value is the low 6 bits, in
[0, 63]. -/
theorem c9_imm7_sign_extension (instr : Nat) :
    ((instr / 2 ^ 6) % 2 = 1 →
      imm7 instr = ((instr % 2 ^ 6 : Nat) : Int) - 64
      ∧ -64 ≤ imm7 instr ∧ imm7 instr ≤ 63)
    ∧ ((instr / 2 ^ 6) % 2 = 0 →
      imm7 instr = ((instr % 2 ^ 6 : Nat) : Int)
      ∧ 0 ≤ imm7 instr ∧ imm7 instr ≤ 63) := by
  have hlt : instr % 2 ^ 6 < 64 := Nat.mod_lt _ (by norm_num)
  constructor
  · intro h1
    have he : imm7 instr = ((instr % 2 ^ 6 : Nat) : Int) - 64 := by
      simp only [imm7]
      rw [if_pos h1]
    refine ⟨he, ?_, ?_⟩ <;> rw [he] <;> omega
  · intro h0
    have he : imm7 instr = ((instr % 2 ^ 6 : Nat) : Int) := by
      simp only [imm7]
      rw [if_neg (by omega)]
    refine ⟨he, ?_, ?_⟩ <;> rw [he] <;> omega

theorem c9_imm7_witness :
    imm7 100 = ((100 % 2 ^ 6 : Nat) : Int) - 64 ∧ -64 ≤ imm7 100 ∧ imm7 100 ≤ 63 :=
  (c9_imm7_sign_extension 100).1 (by decide)

/-- Helper: `getD` after `set` at the same in-range index yields the new
element. -/
theorem getD_set_self {α : Type} (l : List α) (i : Nat) (a d : α)
    (h : i < l.length) : (l.set i a).getD i d = a := by
  induction l generalizing i with
  | nil => simp at h
  | cons x xs ih =>
    cases i with
    | zero => rfl
    | succ n =>
      have := ih n (by simpa using h)
      simpa [List.set, List.getD] using this

/-- Helper: `getD` after `set` at a different index is unchanged. -/
theorem getD_set_ne {α : Type} (l : List α) (i j : Nat) (a d : α)
    (h : i ≠ j) : (l.set i a).getD j d = l.getD j d := by
  induction l generalizing i j with
  | nil => rfl
  | cons x xs ih =>
    cases i with
    | zero =>
      cases j with
      | zero => exact absurd rfl h
      | succ m => rfl
    | succ n =>
      cases j with
      | zero => rfl
      | succ m => simpa [List.set, List.getD] using ih n m (by omega)

/-- Closed form of `jumpDispatch`: the halt flag is raised exactly when
`pc` equals the 13-bit target, and register 7 is linked exactly when the
prefix is `011`. -/
theorem jumpDispatch_eq (pc : Nat) (regs : List Nat) (instr : Nat) :
    jumpDispatch pc regs instr =
      if pc = instr % 2 ^ 13 then
        (pc, (if instr / 2 ^ 13 = 3 then regs.set 7 (pc + 1) else regs), true)
      else
        (instr % 2 ^ 13, (if instr / 2 ^ 13 = 3 then regs.set 7 (pc + 1) else regs), false) := by
  simp only [jumpDispatch, j_or_jal]
  by_cases h : pc = instr % 2 ^ 13
  · rw [if_pos h, if_pos h]
    rfl
  · rw [if_neg h, if_neg h]
    rfl

/-- C6: for an absolute jump or jump-and-link (prefix `01`), the simulation
halts iff the 13-bit target equals the current pc; for any other target
that target becomes the next pc; a jal (prefix `011`) writes `pc+1` into
register 7; a plain `j` (prefix `010`) leaves the registers unchanged. -/
theorem c6_jump_halts_iff_target_eq_pc (pc : Nat) (regs : List Nat) (instr : Nat)
    (_hpre : instr / 2 ^ 14 = 1) (hlen : regs.length = 8) :
    ((jumpDispatch pc regs instr).2.2 = true ↔ instr % 2 ^ 13 = pc)
    ∧ (instr % 2 ^ 13 ≠ pc → (jumpDispatch pc regs instr).1 = instr % 2 ^ 13
        ∧ (jumpDispatch pc regs instr).2.2 = false)
    ∧ (instr / 2 ^ 13 = 3 →
        (jumpDispatch pc regs instr).2.1 = regs.set 7 (pc + 1)
        ∧ (jumpDispatch pc regs instr).2.1.getD 7 0 = pc + 1)
    ∧ (instr / 2 ^ 13 = 2 → (jumpDispatch pc regs instr).2.1 = regs) := by
  rw [jumpDispatch_eq]
  by_cases hpc : pc = instr % 2 ^ 13 <;> by_cases hjal : instr / 2 ^ 13 = 3
  · rw [if_pos hpc, if_pos hjal]
    exact ⟨⟨fun _ => hpc.symm, fun _ => rfl⟩,
      fun hne => absurd hpc.symm hne,
      fun _ => ⟨rfl, getD_set_self regs 7 (pc + 1) 0 (by omega)⟩,
      fun h2 => absurd (hjal.symm.trans h2) (by decide)⟩
  · rw [if_pos hpc, if_neg hjal]
    exact ⟨⟨fun _ => hpc.symm, fun _ => rfl⟩,
      fun hne => absurd hpc.symm hne,
      fun h3 => absurd h3 hjal,
      fun _ => rfl⟩
  · rw [if_neg hpc, if_pos hjal]
    exact ⟨⟨fun h => absurd h Bool.false_ne_true, fun h => absurd h.symm hpc⟩,
      fun _ => ⟨rfl, rfl⟩,
      fun _ => ⟨rfl, getD_set_self regs 7 (pc + 1) 0 (by omega)⟩,
      fun h2 => absurd (hjal.symm.trans h2) (by decide)⟩
  · rw [if_neg hpc, if_neg hjal]
    exact ⟨⟨fun h => absurd h Bool.false_ne_true, fun h => absurd h.symm hpc⟩,
      fun _ => ⟨rfl, rfl⟩,
      fun h3 => absurd h3 hjal,
      fun _ => rfl⟩

theorem c6_jump_witness :
    (jumpDispatch 0 (List.replicate 8 0) 24581).1 = 24581 % 2 ^ 13
    ∧ (jumpDispatch 0 (List.replicate 8 0) 24581).2.1.getD 7 0 = 0 + 1 :=
  ⟨((c6_jump_halts_iff_target_eq_pc 0 (List.replicate 8 0) 24581 (by decide)
      (by decide)).2.1 (by decide)).1,
   ((c6_jump_halts_iff_target_eq_pc 0 (List.replicate 8 0) 24581 (by decide)
      (by decide)).2.2.1 (by decide)).2⟩

/-- C10: a jal (prefix `011`) whose 13-bit target equals the current pc
halts the simulation, but register 7 is still updated to `pc+1`: the link
write in `j_or_jal` precedes the self-jump check. -/
theorem c10_halting_jal_still_links (pc : Nat) (regs : List Nat) (instr : Nat)
    (hjal : instr / 2 ^ 13 = 3) (hself : instr % 2 ^ 13 = pc)
    (hlen : regs.length = 8) :
    (jumpDispatch pc regs instr).2.2 = true
    ∧ (jumpDispatch pc regs instr).2.1 = regs.set 7 (pc + 1)
    ∧ (jumpDispatch pc regs instr).2.1.getD 7 0 = pc + 1 := by
  have hd : jumpDispatch pc regs instr = (pc, regs.set 7 (pc + 1), true) := by
    rw [jumpDispatch_eq, if_pos hself.symm, if_pos hjal]
  rw [hd]
  exact ⟨rfl, rfl, getD_set_self regs 7 (pc + 1) 0 (by omega)⟩

theorem c10_halting_jal_witness :
    (jumpDispatch 0 (List.replicate 8 0) 24576).2.2 = true
    ∧ (jumpDispatch 0 (List.replicate 8 0) 24576).2.1.getD 7 0 = 0 + 1 :=
  ⟨(c10_halting_jal_still_links 0 (List.replicate 8 0) 24576 (by decide)
      (by decide) (by decide)).1,
   (c10_halting_jal_still_links 0 (List.replicate 8 0) 24576 (by decide)
      (by decide) (by decide)).2.2⟩

/-- A cache slot, the tuple `(tag, recency)` of `simcache.py`; the
uninitialized slot is `(-1, -1)`. -/
abbrev Slot := Int × Int

/-- A cache configuration triple from the command line:
`size, associativity, blocksize`. -/
structure CacheConfig where
  size : Nat
  assoc : Nat
  blockSize : Nat
deriving DecidableEq, Repr

/-- `numlines = size // (assoc * blocksize)` (lines 160/174/179), Python
floor division on non-negative integers. -/
def numLines (cfg : CacheConfig) : Nat := cfg.size / (cfg.assoc * cfg.blockSize)

/-- The initial state of one cache: `numlines` copies of the set
`[(-1, -1)] * assoc` (lines 165-168). -/
def initCache (cfg : CacheConfig) : List (List Slot) :=
  List.replicate (numLines cfg) (List.replicate cfg.assoc ((-1 : Int), (-1 : Int)))

/-- `block_number = mem_val // blocksize` (lines 203/259).  The effective
address may be negative in Python, and Python's `//` with a positive
divisor is floor division, i.e. `Int.ediv`. -/
def blockNumber (cfg : CacheConfig) (addr : Int) : Int :=
  Int.ediv addr (cfg.blockSize : Int)

/-- `line = block_number % numlines` (lines 204/260); Python `%` with a
positive divisor is `Int.emod`. -/
def cacheLineOf (cfg : CacheConfig) (addr : Int) : Int :=
  Int.emod (blockNumber cfg addr) (numLines cfg : Int)

/-- `tag = block_number // numlines` (lines 205/261). -/
def cacheTagOf (cfg : CacheConfig) (addr : Int) : Int :=
  Int.ediv (blockNumber cfg addr) (numLines cfg : Int)

/-- The scan loop over the slots of one set (lines 209-234): at each index,
first test for a tag match, then for an uninitialized slot; stop (break) at
the first slot satisfying either.  Returns the index together with `true`
for a match and `false` for an empty slot, or `none` when the loop runs out
(the set is full and the tag absent). -/
def scanSet (tag : Int) : List Slot → Option (Nat × Bool)
  | [] => none
  | x :: rest =>
      if x.1 = tag then some (0, true)
      else if x.1 = -1 then some (0, false)
      else (scanSet tag rest).map (fun r => (r.1 + 1, r.2))

/-- The full-set recency bump `for j in range(assoc)` (lines 217-219 and
249-251): every slot's recency is incremented by 1. -/
def bumpAll (s : List Slot) : List Slot :=
  s.map (fun x => (x.1, x.2 + 1))

/-- The partial recency bump `for j in range(i+1)` of the empty-slot fill
path (lines 229-231): only slots at indices `0..i` inclusive are
incremented. -/
def bumpUpTo : List Slot → Nat → List Slot
  | [], _ => []
  | x :: rest, 0 => (x.1, x.2 + 1) :: rest
  | x :: rest, i + 1 => (x.1, x.2 + 1) :: bumpUpTo rest i

/-- The LRU search loop (lines 239-245): `maxi` starts at `-1` and
`maxi_index` is updated whenever a strictly larger recency is seen, so the
first index attaining the maximum recency wins ties.  The accumulator
`idx` models `maxi_index` (left at 0 if never assigned, which on reachable
full sets cannot happen). -/
def lruScan : List Slot → Int → Nat → Nat → Nat
  | [], _, _, idx => idx
  | x :: rest, maxi, i, idx =>
      if maxi < x.2 then lruScan rest x.2 (i + 1) i
      else lruScan rest maxi (i + 1) idx

/-- The index evicted from a full set: the first slot with maximal
recency. -/
def lruIndex (s : List Slot) : Nat := lruScan s (-1) 0 0

/-- One access to one cache set (lines 209-251): on a tag match the slot is
rewritten to `(tag, 0)` and then every slot of the set (the matched one
included) is bumped; on a fill of the first empty slot `i` the slot becomes
`(tag, 0)` and only slots `0..i` are bumped; on a full set the first slot
of maximal recency is replaced by `(tag, 0)` and every slot is bumped.  A
load (`isLW = true`) is classified `HIT` on a match and `MISS` otherwise; a
store always reports `SW`. -/
def accessSet (s : List Slot) (tag : Int) (isLW : Bool) : List Slot × Status :=
  match scanSet tag s with
  | some (i, true) =>
      (bumpAll (s.set i (tag, 0)), if isLW then Status.HIT else Status.SW)
  | some (i, false) =>
      (bumpUpTo (s.set i (tag, 0)) i, if isLW then Status.MISS else Status.SW)
  | none =>
      (bumpAll (s.set (lruIndex s) (tag, 0)), if isLW then Status.MISS else Status.SW)

/-- One access to one cache (lines 199-253 for L1, 257-291 for L2): derive
the line and tag from the effective address, access the selected set, and
return the updated sets, the status and the line number. -/
def cacheAccess (cfg : CacheConfig) (sets : List (List Slot)) (addr : Int)
    (isLW : Bool) : List (List Slot) × Status × Int :=
  let line := cacheLineOf cfg addr
  let tag := cacheTagOf cfg addr
  let r := accessSet (sets.getD line.toNat []) tag isLW
  (sets.set line.toNat r.1, r.2, line)

/-- One log line produced by `print_log_entry`. -/
structure LogEvent where
  cache : String
  status : Status
  pc : Nat
  addr : Int
  line : Int
deriving DecidableEq, Repr

/-- The per-memory-instruction cache step of the main loop (lines 199-293):
access L1, emit its log event, and, when a second cache is configured and
the L1 status is not `HIT` (line 257), access L2 and emit its event too.
Returns the new L1 sets, the new L2 sets and the emitted events in
order. -/
def memStep (cfg1 : CacheConfig) (cfg2? : Option CacheConfig)
    (L1 : List (List Slot)) (L2 : List (List Slot)) (pc : Nat) (addr : Int)
    (isLW : Bool) : List (List Slot) × List (List Slot) × List LogEvent :=
  let r1 := cacheAccess cfg1 L1 addr isLW
  match cfg2? with
  | none => (r1.1, L2, [⟨"L1", r1.2.1, pc, addr, r1.2.2⟩])
  | some cfg2 =>
      if r1.2.1 ≠ Status.HIT then
        let r2 := cacheAccess cfg2 L2 addr isLW
        (r1.1, r2.1, [⟨"L1", r1.2.1, pc, addr, r1.2.2⟩, ⟨"L2", r2.2.1, pc, addr, r2.2.2⟩])
      else
        (r1.1, L2, [⟨"L1", r1.2.1, pc, addr, r1.2.2⟩])

/-- The cache-argument handling of `main` (lines 155-184): a list of 3
integers configures L1 only, 6 integers configure L1 and L2, anything else
raises `Invalid cache config` (modelled as `none`).  No divisibility check
is performed anywhere: `numLines` is computed by floor division when the
caches are later used. -/
def parseCache (parts : List Nat) : Option (CacheConfig × Option CacheConfig) :=
  match parts with
  | [s, a, b] => some (⟨s, a, b⟩, none)
  | [s1, a1, b1, s2, a2, b2] => some (⟨s1, a1, b1⟩, some ⟨s2, a2, b2⟩)
  | _ => none

/-- C7 counterexample: the configuration `5,2,1`, whose size 5 is not
divisible by `associativity * blockSize = 2`, is accepted (the claim says
it is rejected); `numLines` silently floors to 2. -/
theorem c7_counterexample_nondivisible_accepted :
    (parseCache [5, 2, 1]).isSome = true ∧ 5 % (2 * 1) ≠ 0
    ∧ numLines ⟨5, 2, 1⟩ = 2 := by
  exact ⟨rfl, by decide, rfl⟩

/-- C7 amended: the cache argument is rejected iff it does not split into
exactly 3 or 6 integers; divisibility of `size` by
`associativity * blockSize` is never checked, and `numLines` is the floor
of the quotient. -/
theorem c7_config_rejected_iff_bad_arity (parts : List Nat) :
    (parseCache parts = none ↔ parts.length ≠ 3 ∧ parts.length ≠ 6)
    ∧ (∀ s a b, parseCache [s, a, b] = some (⟨s, a, b⟩, none)
        ∧ numLines ⟨s, a, b⟩ = s / (a * b)) := by
  constructor
  · rcases parts with _ | ⟨a, _ | ⟨b, _ | ⟨c, _ | ⟨d, _ | ⟨e, _ | ⟨f, _ | rest⟩⟩⟩⟩⟩⟩ <;>
      simp [parseCache]
  · intro s a b
    exact ⟨rfl, rfl⟩

theorem c7_config_witness :
    parseCache [1, 2, 3, 4] = none :=
  (c7_config_rejected_iff_bad_arity [1, 2, 3, 4]).1.mpr (by decide)

/-- The slot of a set at index `i` (defaulting to the uninitialized slot
out of range; every use below is guarded by a length bound). -/
def slotAt (s : List Slot) (i : Nat) : Slot := s.getD i ((-1 : Int), (-1 : Int))

theorem slotAt_cons_zero (x : Slot) (rest : List Slot) : slotAt (x :: rest) 0 = x := rfl

theorem slotAt_cons_succ (x : Slot) (rest : List Slot) (j : Nat) :
    slotAt (x :: rest) (j + 1) = slotAt rest j := rfl

theorem slotAt_set_self (s : List Slot) (i : Nat) (a : Slot) (h : i < s.length) :
    slotAt (s.set i a) i = a :=
  getD_set_self s i a _ h

theorem slotAt_set_ne (s : List Slot) (i j : Nat) (a : Slot) (h : i ≠ j) :
    slotAt (s.set i a) j = slotAt s j :=
  getD_set_ne s i j a _ h

theorem length_bumpAll (s : List Slot) : (bumpAll s).length = s.length := by
  simp [bumpAll]

theorem slotAt_bumpAll (s : List Slot) (j : Nat) (h : j < s.length) :
    slotAt (bumpAll s) j = ((slotAt s j).1, (slotAt s j).2 + 1) := by
  induction s generalizing j with
  | nil => simp at h
  | cons x xs ih =>
    cases j with
    | zero => rfl
    | succ n => exact ih n (by simpa using h)

theorem length_bumpUpTo (s : List Slot) (i : Nat) : (bumpUpTo s i).length = s.length := by
  induction s generalizing i with
  | nil => rfl
  | cons x xs ih =>
    cases i with
    | zero => rfl
    | succ m => simpa [bumpUpTo] using ih m

theorem slotAt_bumpUpTo_le (s : List Slot) (i j : Nat) (hj : j ≤ i) (h : j < s.length) :
    slotAt (bumpUpTo s i) j = ((slotAt s j).1, (slotAt s j).2 + 1) := by
  induction s generalizing i j with
  | nil => simp at h
  | cons x xs ih =>
    cases i with
    | zero =>
      cases j with
      | zero => rfl
      | succ n => omega
    | succ m =>
      cases j with
      | zero => rfl
      | succ n => exact ih m n (by omega) (by simpa using h)

theorem slotAt_bumpUpTo_gt (s : List Slot) (i j : Nat) (hj : i < j) :
    slotAt (bumpUpTo s i) j = slotAt s j := by
  induction s generalizing i j with
  | nil => rfl
  | cons x xs ih =>
    cases i with
    | zero =>
      cases j with
      | zero => omega
      | succ n => rfl
    | succ m =>
      cases j with
      | zero => omega
      | succ n => exact ih m n (by omega)

theorem scanSet_cons (t : Int) (x : Slot) (rest : List Slot) :
    scanSet t (x :: rest) =
      if x.1 = t then some (0, true)
      else if x.1 = -1 then some (0, false)
      else (scanSet t rest).map (fun r => (r.1 + 1, r.2)) := rfl

/-- The scan returns `none` exactly when no slot matches the tag and no
slot is uninitialized (the loop of lines 209-234 falls through). -/
theorem scanSet_none_iff (t : Int) (s : List Slot) :
    scanSet t s = none ↔
      ∀ j, j < s.length → (slotAt s j).1 ≠ t ∧ (slotAt s j).1 ≠ -1 := by
  induction s with
  | nil => simp [scanSet]
  | cons x xs ih =>
    by_cases hxt : x.1 = t
    · rw [scanSet_cons, if_pos hxt]
      constructor
      · intro h
        exact absurd h (by simp)
      · intro h
        exact absurd hxt (h 0 (by simp)).1
    · by_cases hxe : x.1 = -1
      · rw [scanSet_cons, if_neg hxt, if_pos hxe]
        constructor
        · intro h
          exact absurd h (by simp)
        · intro h
          exact absurd hxe (h 0 (by simp)).2
      · rw [scanSet_cons, if_neg hxt, if_neg hxe]
        rw [Option.map_eq_none']
        constructor
        · intro h j hj
          cases j with
          | zero => exact ⟨hxt, hxe⟩
          | succ n =>
            rw [slotAt_cons_succ]
            exact (ih.mp h) n (by simpa using hj)
        · intro h
          refine ih.mpr (fun j hj => ?_)
          have := h (j + 1) (by simpa using hj)
          rwa [slotAt_cons_succ] at this

/-- The scan returns `some (i, true)` exactly when slot `i` holds the tag
and every earlier slot neither matches nor is empty. -/
theorem scanSet_some_true_iff (t : Int) (s : List Slot) (i : Nat) :
    scanSet t s = some (i, true) ↔
      (i < s.length ∧ (slotAt s i).1 = t
        ∧ ∀ j, j < i → (slotAt s j).1 ≠ t ∧ (slotAt s j).1 ≠ -1) := by
  induction s generalizing i with
  | nil => simp [scanSet]
  | cons x xs ih =>
    by_cases hxt : x.1 = t
    · rw [scanSet_cons, if_pos hxt]
      constructor
      · intro h
        have hi : i = 0 := by
          have := (Option.some.injEq _ _).mp h
          exact ((Prod.ext_iff.mp this).1).symm
        subst hi
        exact ⟨by simp, hxt, fun j hj => absurd hj (Nat.not_lt_zero j)⟩
      · rintro ⟨hi, hmatch, hbef⟩
        cases i with
        | zero => rfl
        | succ n => exact absurd hxt (hbef 0 (Nat.succ_pos n)).1
    · by_cases hxe : x.1 = -1
      · rw [scanSet_cons, if_neg hxt, if_pos hxe]
        constructor
        · intro h
          have := (Option.some.injEq _ _).mp h
          exact absurd (Prod.ext_iff.mp this).2 (by simp)
        · rintro ⟨hi, hmatch, hbef⟩
          cases i with
          | zero => exact absurd hmatch hxt
          | succ n => exact absurd hxe (hbef 0 (Nat.succ_pos n)).2
      · rw [scanSet_cons, if_neg hxt, if_neg hxe]
        constructor
        · intro h
          rcases Option.map_eq_some'.mp h with ⟨r, hr, hfr⟩
          obtain ⟨ri, rb⟩ := r
          have h1 : ri + 1 = i := (Prod.ext_iff.mp hfr).1
          have h2 : rb = true := (Prod.ext_iff.mp hfr).2
          subst h2
          rcases (ih ri).mp hr with ⟨hlt, hm, hb⟩
          subst h1
          refine ⟨by simpa using hlt, by rwa [slotAt_cons_succ], fun j hj => ?_⟩
          cases j with
          | zero => exact ⟨hxt, hxe⟩
          | succ n =>
            rw [slotAt_cons_succ]
            exact hb n (by omega)
        · rintro ⟨hi, hmatch, hbef⟩
          cases i with
          | zero => exact absurd hmatch hxt
          | succ n =>
            have hrest : scanSet t xs = some (n, true) := by
              refine (ih n).mpr ⟨by simpa using hi, ?_, fun j hj => ?_⟩
              · rwa [slotAt_cons_succ] at hmatch
              · have := hbef (j + 1) (by omega)
                rwa [slotAt_cons_succ] at this
            rw [hrest]
            rfl

/-- The scan returns `some (i, false)` exactly when slot `i` is the first
empty slot, no earlier slot matches, and slot `i` itself does not match
(i.e. the tag is not `-1`). -/
theorem scanSet_some_false_iff (t : Int) (s : List Slot) (i : Nat) :
    scanSet t s = some (i, false) ↔
      (i < s.length ∧ (slotAt s i).1 = -1 ∧ (slotAt s i).1 ≠ t
        ∧ ∀ j, j < i → (slotAt s j).1 ≠ t ∧ (slotAt s j).1 ≠ -1) := by
  induction s generalizing i with
  | nil => simp [scanSet]
  | cons x xs ih =>
    by_cases hxt : x.1 = t
    · rw [scanSet_cons, if_pos hxt]
      constructor
      · intro h
        have := (Option.some.injEq _ _).mp h
        exact absurd (Prod.ext_iff.mp this).2 (by simp)
      · rintro ⟨hi, hempty, hne, hbef⟩
        cases i with
        | zero => exact absurd hxt hne
        | succ n => exact absurd hxt (hbef 0 (Nat.succ_pos n)).1
    · by_cases hxe : x.1 = -1
      · rw [scanSet_cons, if_neg hxt, if_pos hxe]
        constructor
        · intro h
          have hi : i = 0 := by
            have := (Option.some.injEq _ _).mp h
            exact ((Prod.ext_iff.mp this).1).symm
          subst hi
          exact ⟨by simp, hxe, hxt, fun j hj => absurd hj (Nat.not_lt_zero j)⟩
        · rintro ⟨hi, hempty, hne, hbef⟩
          cases i with
          | zero => rfl
          | succ n => exact absurd hxe (hbef 0 (Nat.succ_pos n)).2
      · rw [scanSet_cons, if_neg hxt, if_neg hxe]
        constructor
        · intro h
          rcases Option.map_eq_some'.mp h with ⟨r, hr, hfr⟩
          obtain ⟨ri, rb⟩ := r
          have h1 : ri + 1 = i := (Prod.ext_iff.mp hfr).1
          have h2 : rb = false := (Prod.ext_iff.mp hfr).2
          subst h2
          rcases (ih ri).mp hr with ⟨hlt, hm, hne, hb⟩
          subst h1
          refine ⟨by simpa using hlt, by rwa [slotAt_cons_succ], by rwa [slotAt_cons_succ],
            fun j hj => ?_⟩
          cases j with
          | zero => exact ⟨hxt, hxe⟩
          | succ n =>
            rw [slotAt_cons_succ]
            exact hb n (by omega)
        · rintro ⟨hi, hempty, hne, hbef⟩
          cases i with
          | zero => exact absurd hempty hxe
          | succ n =>
            have hrest : scanSet t xs = some (n, false) := by
              refine (ih n).mpr ⟨by simpa using hi, ?_, ?_, fun j hj => ?_⟩
              · rwa [slotAt_cons_succ] at hempty
              · rwa [slotAt_cons_succ] at hne
              · have := hbef (j + 1) (by omega)
                rwa [slotAt_cons_succ] at this
            rw [hrest]
            rfl

theorem accessSet_eq_of_match (s : List Slot) (t : Int) (isLW : Bool) (i : Nat)
    (h : scanSet t s = some (i, true)) :
    accessSet s t isLW =
      (bumpAll (s.set i (t, 0)), if isLW then Status.HIT else Status.SW) := by
  unfold accessSet
  rw [h]

theorem accessSet_eq_of_fill (s : List Slot) (t : Int) (isLW : Bool) (i : Nat)
    (h : scanSet t s = some (i, false)) :
    accessSet s t isLW =
      (bumpUpTo (s.set i (t, 0)) i, if isLW then Status.MISS else Status.SW) := by
  unfold accessSet
  rw [h]

theorem accessSet_eq_of_full (s : List Slot) (t : Int) (isLW : Bool)
    (h : scanSet t s = none) :
    accessSet s t isLW =
      (bumpAll (s.set (lruIndex s) (t, 0)), if isLW then Status.MISS else Status.SW) := by
  unfold accessSet
  rw [h]

/-- A store is never classified `HIT` (or `MISS`): its status is always the
pass-through event `SW`. -/
theorem accessSet_store_status (s : List Slot) (t : Int) :
    (accessSet s t false).2 = Status.SW := by
  rcases h : scanSet t s with _ | ⟨i, b⟩
  · rw [accessSet_eq_of_full s t false h]
    rfl
  · cases b
    · rw [accessSet_eq_of_fill s t false i h]
      rfl
    · rw [accessSet_eq_of_match s t false i h]
      rfl

/-- A load is always classified either `HIT` or `MISS`. -/
theorem accessSet_load_status (s : List Slot) (t : Int) :
    (accessSet s t true).2 = Status.HIT ∨ (accessSet s t true).2 = Status.MISS := by
  rcases h : scanSet t s with _ | ⟨i, b⟩
  · rw [accessSet_eq_of_full s t true h]
    exact Or.inr rfl
  · cases b
    · rw [accessSet_eq_of_fill s t true i h]
      exact Or.inr rfl
    · rw [accessSet_eq_of_match s t true i h]
      exact Or.inl rfl

/-- C2 counterexample: in the one-slot set `[(5, 3)]`, a load of tag 5
matches slot 0, and the code leaves the matched slot with recency 1, not
recency 0 as the claim states: after writing `(tag, 0)` the loop at lines
217-219 bumps every slot of the set, the matched one included. -/
theorem c2_counterexample_matched_slot_recency_one :
    (accessSet [((5 : Int), (3 : Int))] 5 true).1 = [((5 : Int), (1 : Int))]
    ∧ (accessSet [((5 : Int), (3 : Int))] 5 true).1 ≠ [((5 : Int), (0 : Int))] := by
  decide

/-- C2 amended: on a tag match at slot `i` the matched slot is set to
recency 0 and then every slot of the set, the matched slot included, is
incremented by 1 - so the matched slot ends the access with recency 1
while every other slot is one older; a matching load is classified HIT. -/
theorem c2_match_promotes_with_recency_one (s : List Slot) (t : Int) (isLW : Bool)
    (i : Nat) (hi : i < s.length) (hmatch : (slotAt s i).1 = t)
    (hbef : ∀ j, j < i → (slotAt s j).1 ≠ t ∧ (slotAt s j).1 ≠ -1) :
    slotAt (accessSet s t isLW).1 i = (t, 1)
    ∧ (∀ j, j < s.length → j ≠ i →
        slotAt (accessSet s t isLW).1 j = ((slotAt s j).1, (slotAt s j).2 + 1))
    ∧ (accessSet s t isLW).1.length = s.length
    ∧ (accessSet s t true).2 = Status.HIT := by
  have hscan : scanSet t s = some (i, true) :=
    (scanSet_some_true_iff t s i).mpr ⟨hi, hmatch, hbef⟩
  have he := accessSet_eq_of_match s t isLW i hscan
  have he' := accessSet_eq_of_match s t true i hscan
  refine ⟨?_, fun j hj hne => ?_, ?_, ?_⟩
  · rw [he]
    show slotAt (bumpAll (s.set i (t, 0))) i = (t, 1)
    rw [slotAt_bumpAll _ i (by rw [List.length_set]; exact hi), slotAt_set_self s i _ hi]
    norm_num
  · rw [he]
    show slotAt (bumpAll (s.set i (t, 0))) j = ((slotAt s j).1, (slotAt s j).2 + 1)
    rw [slotAt_bumpAll _ j (by rw [List.length_set]; exact hj),
      slotAt_set_ne s i j _ (fun hij => hne hij.symm)]
  · rw [he]
    show (bumpAll (s.set i (t, 0))).length = s.length
    rw [length_bumpAll, List.length_set]
  · rw [he']
    rfl

theorem c2_match_witness :
    slotAt (accessSet [((7 : Int), (0 : Int)), ((5 : Int), (4 : Int))] 5 true).1 1 = (5, 1)
    ∧ (accessSet [((7 : Int), (0 : Int)), ((5 : Int), (4 : Int))] 5 true).2 = Status.HIT :=
  ⟨(c2_match_promotes_with_recency_one [((7 : Int), (0 : Int)), ((5 : Int), (4 : Int))] 5 true 1
      (by decide) (by decide) (by decide)).1,
   (c2_match_promotes_with_recency_one [((7 : Int), (0 : Int)), ((5 : Int), (4 : Int))] 5 true 1
      (by decide) (by decide) (by decide)).2.2.2⟩

/-- C3: when the tag is not resident but the lowest empty slot is at index
`i`, that slot receives the new tag; the recency bump touches only slots
`0..i` inclusive, so the just-filled slot ends the access with recency 1,
earlier slots are one older, and slots beyond `i` are completely
unchanged; a load is classified MISS. -/
theorem c3_fill_first_empty (s : List Slot) (t : Int) (isLW : Bool)
    (i : Nat) (hi : i < s.length) (hempty : (slotAt s i).1 = -1) (ht : t ≠ -1)
    (hbef : ∀ j, j < i → (slotAt s j).1 ≠ t ∧ (slotAt s j).1 ≠ -1) :
    slotAt (accessSet s t isLW).1 i = (t, 1)
    ∧ (∀ j, j < i →
        slotAt (accessSet s t isLW).1 j = ((slotAt s j).1, (slotAt s j).2 + 1))
    ∧ (∀ j, i < j → slotAt (accessSet s t isLW).1 j = slotAt s j)
    ∧ (accessSet s t isLW).1.length = s.length
    ∧ (accessSet s t true).2 = Status.MISS := by
  have hscan : scanSet t s = some (i, false) :=
    (scanSet_some_false_iff t s i).mpr
      ⟨hi, hempty, by rw [hempty]; exact fun h => ht h.symm, hbef⟩
  have he := accessSet_eq_of_fill s t isLW i hscan
  have he' := accessSet_eq_of_fill s t true i hscan
  refine ⟨?_, fun j hj => ?_, fun j hj => ?_, ?_, ?_⟩
  · rw [he]
    show slotAt (bumpUpTo (s.set i (t, 0)) i) i = (t, 1)
    rw [slotAt_bumpUpTo_le _ i i le_rfl (by rw [List.length_set]; exact hi),
      slotAt_set_self s i _ hi]
    norm_num
  · rw [he]
    show slotAt (bumpUpTo (s.set i (t, 0)) i) j = ((slotAt s j).1, (slotAt s j).2 + 1)
    rw [slotAt_bumpUpTo_le _ i j (by omega) (by rw [List.length_set]; omega),
      slotAt_set_ne s i j _ (by omega)]
  · rw [he]
    show slotAt (bumpUpTo (s.set i (t, 0)) i) j = slotAt s j
    rw [slotAt_bumpUpTo_gt _ i j hj, slotAt_set_ne s i j _ (by omega)]
  · rw [he]
    show (bumpUpTo (s.set i (t, 0)) i).length = s.length
    rw [length_bumpUpTo, List.length_set]
  · rw [he']
    rfl

theorem c3_fill_witness :
    slotAt (accessSet [((7 : Int), (2 : Int)), ((-1 : Int), (-1 : Int)),
        ((-1 : Int), (-1 : Int))] 5 true).1 1 = (5, 1)
    ∧ slotAt (accessSet [((7 : Int), (2 : Int)), ((-1 : Int), (-1 : Int)),
        ((-1 : Int), (-1 : Int))] 5 true).1 2 = ((-1 : Int), (-1 : Int))
    ∧ (accessSet [((7 : Int), (2 : Int)), ((-1 : Int), (-1 : Int)),
        ((-1 : Int), (-1 : Int))] 5 true).2 = Status.MISS :=
  ⟨(c3_fill_first_empty [((7 : Int), (2 : Int)), ((-1 : Int), (-1 : Int)),
      ((-1 : Int), (-1 : Int))] 5 true 1 (by decide) (by decide) (by decide) (by decide)).1,
   (c3_fill_first_empty [((7 : Int), (2 : Int)), ((-1 : Int), (-1 : Int)),
      ((-1 : Int), (-1 : Int))] 5 true 1 (by decide) (by decide) (by decide)
      (by decide)).2.2.1 2 (by decide),
   (c3_fill_first_empty [((7 : Int), (2 : Int)), ((-1 : Int), (-1 : Int)),
      ((-1 : Int), (-1 : Int))] 5 true 1 (by decide) (by decide) (by decide)
      (by decide)).2.2.2.2⟩

theorem lruScan_cons (x : Slot) (rest : List Slot) (maxi : Int) (i idx : Nat) :
    lruScan (x :: rest) maxi i idx =
      if maxi < x.2 then lruScan rest x.2 (i + 1) i
      else lruScan rest maxi (i + 1) idx := rfl

/-- If no slot's recency strictly exceeds the running maximum, the scan of
lines 242-245 never reassigns `maxi_index`. -/
theorem lruScan_of_no_improve (s : List Slot) (maxi : Int) (i idx : Nat)
    (h : ∀ k, k < s.length → (slotAt s k).2 ≤ maxi) :
    lruScan s maxi i idx = idx := by
  induction s generalizing maxi i idx with
  | nil => rfl
  | cons x xs ih =>
    have hx : x.2 ≤ maxi := h 0 (by simp)
    rw [lruScan_cons, if_neg (not_lt.mpr hx)]
    refine ih maxi (i + 1) idx (fun k hk => ?_)
    have := h (k + 1) (by simpa using hk)
    rwa [slotAt_cons_succ] at this

/-- The strict-improvement scan of lines 242-245 returns the index of the
first slot attaining the maximal recency, provided some slot's recency
exceeds the initial maximum. -/
theorem lruScan_spec (s : List Slot) (maxi : Int) (i idx : Nat)
    (h : ∃ k, k < s.length ∧ maxi < (slotAt s k).2) :
    ∃ k, k < s.length ∧ lruScan s maxi i idx = i + k
      ∧ maxi < (slotAt s k).2
      ∧ (∀ j, j < s.length → (slotAt s j).2 ≤ (slotAt s k).2)
      ∧ (∀ j, j < k → (slotAt s j).2 < (slotAt s k).2) := by
  induction s generalizing maxi i idx with
  | nil =>
    obtain ⟨k, hk, _⟩ := h
    simp at hk
  | cons x xs ih =>
    by_cases hx : maxi < x.2
    · by_cases h2 : ∃ k, k < xs.length ∧ x.2 < (slotAt xs k).2
      · obtain ⟨k', hk', hrun, hgt, hmax, hfirst⟩ := ih x.2 (i + 1) i h2
        refine ⟨k' + 1, by simpa using Nat.succ_lt_succ hk', ?_, ?_, ?_, ?_⟩
        · rw [lruScan_cons, if_pos hx, hrun]
          omega
        · rw [slotAt_cons_succ]
          exact lt_trans hx hgt
        · intro j hj
          cases j with
          | zero =>
            rw [slotAt_cons_zero, slotAt_cons_succ]
            exact le_of_lt hgt
          | succ n =>
            rw [slotAt_cons_succ, slotAt_cons_succ]
            exact hmax n (by simpa using hj)
        · intro j hj
          cases j with
          | zero =>
            rw [slotAt_cons_zero, slotAt_cons_succ]
            exact hgt
          | succ n =>
            rw [slotAt_cons_succ, slotAt_cons_succ]
            exact hfirst n (by omega)
      · push_neg at h2
        refine ⟨0, by simp, ?_, hx, ?_, fun j hj => absurd hj (Nat.not_lt_zero j)⟩
        · rw [lruScan_cons, if_pos hx, lruScan_of_no_improve xs x.2 (i + 1) i h2]
          omega
        · intro j hj
          cases j with
          | zero => exact le_refl _
          | succ n =>
            rw [slotAt_cons_succ, slotAt_cons_zero]
            exact h2 n (by simpa using hj)
    · obtain ⟨k0, hk0, hgt0⟩ := h
      have h2 : ∃ k, k < xs.length ∧ maxi < (slotAt xs k).2 := by
        cases k0 with
        | zero =>
          rw [slotAt_cons_zero] at hgt0
          exact absurd hgt0 hx
        | succ n =>
          rw [slotAt_cons_succ] at hgt0
          exact ⟨n, by simpa using hk0, hgt0⟩
      obtain ⟨k', hk', hrun, hgt, hmax, hfirst⟩ := ih maxi (i + 1) idx h2
      refine ⟨k' + 1, by simpa using Nat.succ_lt_succ hk', ?_, ?_, ?_, ?_⟩
      · rw [lruScan_cons, if_neg hx, hrun]
        omega
      · rw [slotAt_cons_succ]
        exact hgt
      · intro j hj
        cases j with
        | zero =>
          rw [slotAt_cons_zero, slotAt_cons_succ]
          exact le_trans (not_lt.mp hx) (le_of_lt hgt)
        | succ n =>
          rw [slotAt_cons_succ, slotAt_cons_succ]
          exact hmax n (by simpa using hj)
      · intro j hj
        cases j with
        | zero =>
          rw [slotAt_cons_zero, slotAt_cons_succ]
          exact lt_of_le_of_lt (not_lt.mp hx) hgt
        | succ n =>
          rw [slotAt_cons_succ, slotAt_cons_succ]
          exact hfirst n (by omega)

/-- `lruIndex` picks an in-range slot of maximal recency, and every slot
before it has strictly smaller recency (first index wins ties), provided
some slot's recency exceeds the initial `maxi = -1`. -/
theorem lruIndex_spec (s : List Slot)
    (h : ∃ k, k < s.length ∧ (-1 : Int) < (slotAt s k).2) :
    lruIndex s < s.length
    ∧ (∀ j, j < s.length → (slotAt s j).2 ≤ (slotAt s (lruIndex s)).2)
    ∧ (∀ j, j < lruIndex s → (slotAt s j).2 < (slotAt s (lruIndex s)).2) := by
  obtain ⟨k, hk, hrun, _, hmax, hfirst⟩ := lruScan_spec s (-1) 0 0 h
  have hidx : lruIndex s = k := by
    rw [lruIndex, hrun]
    omega
  rw [hidx]
  exact ⟨hk, hmax, hfirst⟩

/-- C4: on a full set with the tag absent, the evicted slot is the one
with the largest recency (ties broken towards the lowest index); it is
replaced by `(tag, 0)` and then every slot of the set, the just-filled one
included, is bumped, leaving the new slot at recency 1 and every other
slot one older; a load is classified MISS. -/
theorem c4_full_set_evicts_first_max_recency (s : List Slot) (t : Int) (isLW : Bool)
    (hlen : 0 < s.length)
    (hfull : ∀ j, j < s.length → (slotAt s j).1 ≠ t ∧ (slotAt s j).1 ≠ -1)
    (hrec : ∀ j, j < s.length → 0 ≤ (slotAt s j).2) :
    lruIndex s < s.length
    ∧ (∀ j, j < s.length → (slotAt s j).2 ≤ (slotAt s (lruIndex s)).2)
    ∧ (∀ j, j < lruIndex s → (slotAt s j).2 < (slotAt s (lruIndex s)).2)
    ∧ slotAt (accessSet s t isLW).1 (lruIndex s) = (t, 1)
    ∧ (∀ j, j < s.length → j ≠ lruIndex s →
        slotAt (accessSet s t isLW).1 j = ((slotAt s j).1, (slotAt s j).2 + 1))
    ∧ (accessSet s t isLW).1.length = s.length
    ∧ (accessSet s t true).2 = Status.MISS := by
  have hex : ∃ k, k < s.length ∧ (-1 : Int) < (slotAt s k).2 :=
    ⟨0, hlen, lt_of_lt_of_le (by norm_num) (hrec 0 hlen)⟩
  obtain ⟨hk, hmax, hfirst⟩ := lruIndex_spec s hex
  have hscan : scanSet t s = none := (scanSet_none_iff t s).mpr hfull
  have he := accessSet_eq_of_full s t isLW hscan
  have he' := accessSet_eq_of_full s t true hscan
  refine ⟨hk, hmax, hfirst, ?_, fun j hj hne => ?_, ?_, ?_⟩
  · rw [he]
    show slotAt (bumpAll (s.set (lruIndex s) (t, 0))) (lruIndex s) = (t, 1)
    rw [slotAt_bumpAll _ _ (by rw [List.length_set]; exact hk),
      slotAt_set_self s _ _ hk]
    norm_num
  · rw [he]
    show slotAt (bumpAll (s.set (lruIndex s) (t, 0))) j = ((slotAt s j).1, (slotAt s j).2 + 1)
    rw [slotAt_bumpAll _ j (by rw [List.length_set]; exact hj),
      slotAt_set_ne s _ j _ (fun hij => hne hij.symm)]
  · rw [he]
    show (bumpAll (s.set (lruIndex s) (t, 0))).length = s.length
    rw [length_bumpAll, List.length_set]
  · rw [he']
    rfl

theorem c4_evict_witness :
    lruIndex [((3 : Int), (2 : Int)), ((4 : Int), (2 : Int)), ((5 : Int), (1 : Int))] < 3
    ∧ slotAt (accessSet [((3 : Int), (2 : Int)), ((4 : Int), (2 : Int)),
        ((5 : Int), (1 : Int))] 9 true).1
        (lruIndex [((3 : Int), (2 : Int)), ((4 : Int), (2 : Int)), ((5 : Int), (1 : Int))])
        = (9, 1)
    ∧ (accessSet [((3 : Int), (2 : Int)), ((4 : Int), (2 : Int)),
        ((5 : Int), (1 : Int))] 9 true).2 = Status.MISS :=
  ⟨(c4_full_set_evicts_first_max_recency [((3 : Int), (2 : Int)), ((4 : Int), (2 : Int)),
      ((5 : Int), (1 : Int))] 9 true (by decide) (by decide) (by decide)).1,
   (c4_full_set_evicts_first_max_recency [((3 : Int), (2 : Int)), ((4 : Int), (2 : Int)),
      ((5 : Int), (1 : Int))] 9 true (by decide) (by decide) (by decide)).2.2.2.1,
   (c4_full_set_evicts_first_max_recency [((3 : Int), (2 : Int)), ((4 : Int), (2 : Int)),
      ((5 : Int), (1 : Int))] 9 true (by decide) (by decide) (by decide)).2.2.2.2.2.2⟩

/-- Setting an index at or beyond the length leaves a list unchanged
(Python would raise; reachable accesses never do this). -/
theorem set_of_length_le {α : Type} (l : List α) (i : Nat) (a : α)
    (h : l.length ≤ i) : l.set i a = l := by
  induction l generalizing i with
  | nil => rfl
  | cons x xs ih =>
    cases i with
    | zero => simp at h
    | succ n => simpa [List.set] using ih n (by simpa using h)

theorem slotAt_replicate (n k : Nat) (hk : k < n) :
    slotAt (List.replicate n ((-1 : Int), (-1 : Int))) k = ((-1 : Int), (-1 : Int)) := by
  induction n generalizing k with
  | zero => omega
  | succ m ih =>
    cases k with
    | zero => rfl
    | succ p => exact ih p (by omega)

/-- The per-set invariant of the claim: occupied slots hold pairwise
distinct tags (two slots with equal tags can only both be empty), and an
empty slot is never followed by an occupied one (occupied slots form a
prefix of the set). -/
def setInv (s : List Slot) : Prop :=
  ∀ j, j < s.length → ∀ i, i < j →
    ((slotAt s i).1 = -1 → (slotAt s j).1 = -1)
    ∧ ((slotAt s i).1 = (slotAt s j).1 → (slotAt s i).1 = -1)

instance (s : List Slot) : Decidable (setInv s) := by
  unfold setInv
  infer_instance

/-- C8: every initial set satisfies the invariant, and one access with a
non-negative tag (every in-range address yields one) preserves it: a tag
occurs in at most one slot and occupied slots remain a prefix, so the fill
path can never duplicate a tag resident at a higher index. -/
theorem c8_at_most_one_slot_per_tag (s : List Slot) (t : Int) (isLW : Bool)
    (assoc : Nat) (hinv : setInv s) (ht : 0 ≤ t) :
    setInv (List.replicate assoc ((-1 : Int), (-1 : Int)))
    ∧ setInv (accessSet s t isLW).1 := by
  constructor
  · intro j hj i hij
    rw [List.length_replicate] at hj
    rw [slotAt_replicate assoc j hj, slotAt_replicate assoc i (by omega)]
    exact ⟨fun _ => rfl, fun _ => rfl⟩
  rcases hscan : scanSet t s with _ | ⟨i, b⟩
  · -- full set: evict at lruIndex s
    have hforall := (scanSet_none_iff t s).mp hscan
    have he := accessSet_eq_of_full s t isLW hscan
    by_cases hk : lruIndex s < s.length
    · have hlen' : (accessSet s t isLW).1.length = s.length := by
        rw [he]
        show (bumpAll (s.set (lruIndex s) (t, 0))).length = s.length
        rw [length_bumpAll, List.length_set]
      have htagk : (slotAt (accessSet s t isLW).1 (lruIndex s)).1 = t := by
        rw [he]
        show (slotAt (bumpAll (s.set (lruIndex s) (t, 0))) (lruIndex s)).1 = t
        rw [slotAt_bumpAll _ _ (by rw [List.length_set]; exact hk),
          slotAt_set_self s _ _ hk]
      have htag : ∀ j, j < s.length → j ≠ lruIndex s →
          (slotAt (accessSet s t isLW).1 j).1 = (slotAt s j).1 := by
        intro j hj hne
        rw [he]
        show (slotAt (bumpAll (s.set (lruIndex s) (t, 0))) j).1 = (slotAt s j).1
        rw [slotAt_bumpAll _ j (by rw [List.length_set]; exact hj),
          slotAt_set_ne s _ j _ (fun hij => hne hij.symm)]
      intro j hj i' hi'j
      have hjs : j < s.length := by rwa [hlen'] at hj
      have hi's : i' < s.length := lt_trans hi'j hjs
      constructor
      · intro hp
        by_cases hik : i' = lruIndex s
        · rw [hik, htagk] at hp
          exact absurd hp (by omega)
        · rw [htag i' hi's hik] at hp
          exact absurd hp (hforall i' hi's).2
      · intro hp
        by_cases hik : i' = lruIndex s
        · have hjk : j ≠ lruIndex s := by omega
          rw [hik, htagk, htag j hjs hjk] at hp
          exact absurd hp.symm (hforall j hjs).1
        · by_cases hjk : j = lruIndex s
          · rw [htag i' hi's hik, hjk, htagk] at hp
            exact absurd hp (hforall i' hi's).1
          · rw [htag i' hi's hik, htag j hjs hjk] at hp
            rw [htag i' hi's hik]
            exact absurd ((hinv j hjs i' hi'j).2 hp) (hforall i' hi's).2
    · -- out-of-range eviction index: the set write is a no-op
      have hset : s.set (lruIndex s) (t, 0) = s :=
        set_of_length_le s _ _ (by omega)
      have hlen' : (accessSet s t isLW).1.length = s.length := by
        rw [he]
        show (bumpAll (s.set (lruIndex s) (t, 0))).length = s.length
        rw [hset, length_bumpAll]
      have htag : ∀ j, j < s.length →
          (slotAt (accessSet s t isLW).1 j).1 = (slotAt s j).1 := by
        intro j hj
        rw [he]
        show (slotAt (bumpAll (s.set (lruIndex s) (t, 0))) j).1 = (slotAt s j).1
        rw [hset, slotAt_bumpAll _ j hj]
      intro j hj i' hi'j
      have hjs : j < s.length := by rwa [hlen'] at hj
      have hi's : i' < s.length := lt_trans hi'j hjs
      rw [htag j hjs, htag i' hi's]
      exact hinv j hjs i' hi'j
  rcases b with _ | _
  · -- fill of the first empty slot i
    obtain ⟨hi, hempty, hne, hbef⟩ := (scanSet_some_false_iff t s i).mp hscan
    have he := accessSet_eq_of_fill s t isLW i hscan
    have hafter : ∀ j, i < j → j < s.length → (slotAt s j).1 = -1 :=
      fun j hij hj => (hinv j hj i hij).1 hempty
    have hlen' : (accessSet s t isLW).1.length = s.length := by
      rw [he]
      show (bumpUpTo (s.set i (t, 0)) i).length = s.length
      rw [length_bumpUpTo, List.length_set]
    have htagk : (slotAt (accessSet s t isLW).1 i).1 = t := by
      rw [he]
      show (slotAt (bumpUpTo (s.set i (t, 0)) i) i).1 = t
      rw [slotAt_bumpUpTo_le _ i i le_rfl (by rw [List.length_set]; exact hi),
        slotAt_set_self s i _ hi]
    have htag : ∀ j, j < s.length → j ≠ i →
        (slotAt (accessSet s t isLW).1 j).1 = (slotAt s j).1 := by
      intro j hj hnej
      rw [he]
      show (slotAt (bumpUpTo (s.set i (t, 0)) i) j).1 = (slotAt s j).1
      rcases lt_or_gt_of_ne hnej with hlt | hgt
      · rw [slotAt_bumpUpTo_le _ i j (le_of_lt hlt) (by rw [List.length_set]; exact hj),
          slotAt_set_ne s i j _ (by omega)]
      · rw [slotAt_bumpUpTo_gt _ i j hgt, slotAt_set_ne s i j _ (by omega)]
    intro j hj i' hi'j
    have hjs : j < s.length := by rwa [hlen'] at hj
    have hi's : i' < s.length := lt_trans hi'j hjs
    constructor
    · intro hp
      by_cases hik : i' = i
      · rw [hik, htagk] at hp
        exact absurd hp (by omega)
      · rw [htag i' hi's hik] at hp
        by_cases hilt : i' < i
        · exact absurd hp (hbef i' hilt).2
        · have hjk : j ≠ i := by omega
          rw [htag j hjs hjk]
          exact hafter j (by omega) hjs
    · intro hp
      by_cases hik : i' = i
      · have hjk : j ≠ i := by omega
        rw [hik, htagk, htag j hjs hjk] at hp
        have hj1 : (slotAt s j).1 = -1 := hafter j (by omega) hjs
        rw [hj1] at hp
        exact absurd hp (by omega)
      · by_cases hjk : j = i
        · rw [htag i' hi's hik, hjk, htagk] at hp
          exact absurd hp (hbef i' (by omega)).1
        · rw [htag i' hi's hik, htag j hjs hjk] at hp
          rw [htag i' hi's hik]
          exact (hinv j hjs i' hi'j).2 hp
  · -- tag match at slot i: the tags of the set are unchanged
    obtain ⟨hi, hmatch, hbef⟩ := (scanSet_some_true_iff t s i).mp hscan
    have he := accessSet_eq_of_match s t isLW i hscan
    have hlen' : (accessSet s t isLW).1.length = s.length := by
      rw [he]
      show (bumpAll (s.set i (t, 0))).length = s.length
      rw [length_bumpAll, List.length_set]
    have htag : ∀ j, j < s.length →
        (slotAt (accessSet s t isLW).1 j).1 = (slotAt s j).1 := by
      intro j hj
      rw [he]
      show (slotAt (bumpAll (s.set i (t, 0))) j).1 = (slotAt s j).1
      rw [slotAt_bumpAll _ j (by rw [List.length_set]; exact hj)]
      by_cases hij : i = j
      · subst hij
        rw [slotAt_set_self s i _ hi]
        exact hmatch.symm
      · rw [slotAt_set_ne s i j _ hij]
    intro j hj i' hi'j
    have hjs : j < s.length := by rwa [hlen'] at hj
    have hi's : i' < s.length := lt_trans hi'j hjs
    rw [htag j hjs, htag i' hi's]
    exact hinv j hjs i' hi'j

theorem c8_invariant_witness :
    setInv (List.replicate 2 ((-1 : Int), (-1 : Int)))
    ∧ setInv (accessSet [((2 : Int), (1 : Int)), ((-1 : Int), (-1 : Int))] 5 true).1 :=
  ⟨(c8_at_most_one_slot_per_tag [((2 : Int), (1 : Int)), ((-1 : Int), (-1 : Int))] 5 true 2
      (by decide) (by decide)).1,
   (c8_at_most_one_slot_per_tag [((2 : Int), (1 : Int)), ((-1 : Int), (-1 : Int))] 5 true 2
      (by decide) (by decide)).2⟩

theorem cacheAccess_store_status (cfg : CacheConfig) (sets : List (List Slot))
    (addr : Int) : (cacheAccess cfg sets addr false).2.1 = Status.SW :=
  accessSet_store_status _ _

theorem cacheAccess_load_status (cfg : CacheConfig) (sets : List (List Slot))
    (addr : Int) : (cacheAccess cfg sets addr true).2.1 = Status.HIT
      ∨ (cacheAccess cfg sets addr true).2.1 = Status.MISS :=
  accessSet_load_status _ _

theorem memStep_two_eq (cfg1 cfg2 : CacheConfig) (L1 L2 : List (List Slot))
    (pc : Nat) (addr : Int) (isLW : Bool) :
    memStep cfg1 (some cfg2) L1 L2 pc addr isLW =
      if (cacheAccess cfg1 L1 addr isLW).2.1 ≠ Status.HIT then
        ((cacheAccess cfg1 L1 addr isLW).1, (cacheAccess cfg2 L2 addr isLW).1,
          [⟨"L1", (cacheAccess cfg1 L1 addr isLW).2.1, pc, addr,
              (cacheAccess cfg1 L1 addr isLW).2.2⟩,
           ⟨"L2", (cacheAccess cfg2 L2 addr isLW).2.1, pc, addr,
              (cacheAccess cfg2 L2 addr isLW).2.2⟩])
      else
        ((cacheAccess cfg1 L1 addr isLW).1, L2,
          [⟨"L1", (cacheAccess cfg1 L1 addr isLW).2.1, pc, addr,
              (cacheAccess cfg1 L1 addr isLW).2.2⟩]) := rfl

/-- C1: with two caches configured, a store is never classified HIT at L1,
a load is classified HIT or MISS, L2 is accessed (state updated, event
appended) exactly when the L1 status is not HIT, and on an L1 HIT the L2
state is unchanged and only the L1 event is emitted. -/
theorem c1_l2_accessed_iff_l1_not_hit (cfg1 cfg2 : CacheConfig)
    (L1 L2 : List (List Slot)) (pc : Nat) (addr : Int) (isLW : Bool) :
    ((cacheAccess cfg1 L1 addr false).2.1 ≠ Status.HIT)
    ∧ (isLW = true → (cacheAccess cfg1 L1 addr isLW).2.1 = Status.HIT
        ∨ (cacheAccess cfg1 L1 addr isLW).2.1 = Status.MISS)
    ∧ ((cacheAccess cfg1 L1 addr isLW).2.1 ≠ Status.HIT →
        (memStep cfg1 (some cfg2) L1 L2 pc addr isLW).2.1
            = (cacheAccess cfg2 L2 addr isLW).1
        ∧ (memStep cfg1 (some cfg2) L1 L2 pc addr isLW).2.2 =
            [⟨"L1", (cacheAccess cfg1 L1 addr isLW).2.1, pc, addr,
                (cacheAccess cfg1 L1 addr isLW).2.2⟩,
             ⟨"L2", (cacheAccess cfg2 L2 addr isLW).2.1, pc, addr,
                (cacheAccess cfg2 L2 addr isLW).2.2⟩])
    ∧ ((cacheAccess cfg1 L1 addr isLW).2.1 = Status.HIT →
        (memStep cfg1 (some cfg2) L1 L2 pc addr isLW).2.1 = L2
        ∧ (memStep cfg1 (some cfg2) L1 L2 pc addr isLW).2.2 =
            [⟨"L1", Status.HIT, pc, addr, (cacheAccess cfg1 L1 addr isLW).2.2⟩]) := by
  refine ⟨?_, ?_, ?_, ?_⟩
  · rw [cacheAccess_store_status]
    decide
  · intro hl
    subst hl
    exact cacheAccess_load_status cfg1 L1 addr
  · intro hnh
    rw [memStep_two_eq, if_pos hnh]
    exact ⟨rfl, rfl⟩
  · intro hh
    rw [memStep_two_eq, if_neg (not_not_intro hh)]
    refine ⟨rfl, ?_⟩
    rw [hh]

theorem c1_witness :
    (memStep ⟨1, 1, 1⟩ (some ⟨1, 1, 1⟩) (initCache ⟨1, 1, 1⟩) (initCache ⟨1, 1, 1⟩)
        0 0 true).2.1
      = (cacheAccess ⟨1, 1, 1⟩ (initCache ⟨1, 1, 1⟩) 0 true).1
    ∧ (cacheAccess ⟨1, 1, 1⟩ (initCache ⟨1, 1, 1⟩) 0 false).2.1 ≠ Status.HIT :=
  ⟨((c1_l2_accessed_iff_l1_not_hit ⟨1, 1, 1⟩ ⟨1, 1, 1⟩ (initCache ⟨1, 1, 1⟩)
      (initCache ⟨1, 1, 1⟩) 0 0 true).2.2.1 (by decide)).1,
   (c1_l2_accessed_iff_l1_not_hit ⟨1, 1, 1⟩ ⟨1, 1, 1⟩ (initCache ⟨1, 1, 1⟩)
      (initCache ⟨1, 1, 1⟩) 0 0 true).1⟩

/-- Iterated loads through the cache, recording the per-access statuses in
order: exactly what the main loop's lw path (lines 199-253) does to one
cache over a sequence of effective addresses. -/
def runLoads (cfg : CacheConfig) : List (List Slot) → List Int → List (List Slot) × List Status
  | sets, [] => (sets, [])
  | sets, x :: rest =>
      ((runLoads cfg (cacheAccess cfg sets x true).1 rest).1,
        (cacheAccess cfg sets x true).2.1
          :: (runLoads cfg (cacheAccess cfg sets x true).1 rest).2)

theorem runLoads_nil (cfg : CacheConfig) (sets : List (List Slot)) :
    runLoads cfg sets [] = (sets, []) := rfl

theorem runLoads_cons (cfg : CacheConfig) (sets : List (List Slot)) (x : Int)
    (rest : List Int) :
    runLoads cfg sets (x :: rest) =
      ((runLoads cfg (cacheAccess cfg sets x true).1 rest).1,
        (cacheAccess cfg sets x true).2.1
          :: (runLoads cfg (cacheAccess cfg sets x true).1 rest).2) := rfl

/-- C5: in the cache `size 2, associativity 2, blockSize 1` (hence 1 line;
every non-negative address is its own tag), loading addresses with
distinct tags A, B, A, C yields MISS, MISS, HIT, MISS; after the third
access the set is `[(A,1), (B,2)]` - B holds the maximal recency - and the
fourth access evicts B, leaving `[(A,2), (C,1)]`. -/
theorem c5_lru_scenario_abac (a b c : Int) (ha : 0 ≤ a) (hb : 0 ≤ b) (_hc : 0 ≤ c)
    (hab : a ≠ b) (hac : a ≠ c) (hbc : b ≠ c) :
    (runLoads ⟨2, 2, 1⟩ (initCache ⟨2, 2, 1⟩) [a, b, a, c]).2
      = [Status.MISS, Status.MISS, Status.HIT, Status.MISS]
    ∧ (runLoads ⟨2, 2, 1⟩ (initCache ⟨2, 2, 1⟩) [a, b, a]).1 = [[(a, 1), (b, 2)]]
    ∧ (runLoads ⟨2, 2, 1⟩ (initCache ⟨2, 2, 1⟩) [a, b, a, c]).1 = [[(a, 2), (c, 1)]]
    ∧ numLines ⟨2, 2, 1⟩ = 1
    ∧ cacheTagOf ⟨2, 2, 1⟩ b = b := by
  have step : ∀ (s s' : List Slot) (x : Int) (st : Status),
      accessSet s x true = (s', st) →
      cacheAccess ⟨2, 2, 1⟩ [s] x true = ([s'], st, 0) := by
    intro s s' x st h
    have hline : cacheLineOf ⟨2, 2, 1⟩ x = 0 := by
      show x / 1 % 1 = 0
      omega
    have htg : cacheTagOf ⟨2, 2, 1⟩ x = x := by
      show x / 1 / 1 = x
      omega
    simp only [cacheAccess]
    rw [hline, htg]
    show ([s].set 0 (accessSet s x true).1, (accessSet s x true).2, 0) = ([s'], st, 0)
    rw [h]
    rfl
  have e1 : accessSet [((-1 : Int), (-1 : Int)), ((-1 : Int), (-1 : Int))] a true
      = ([(a, 1), ((-1 : Int), (-1 : Int))], Status.MISS) := by
    rw [accessSet_eq_of_fill _ _ _ 0 ((scanSet_some_false_iff a
      [((-1 : Int), (-1 : Int)), ((-1 : Int), (-1 : Int))] 0).mpr
      ⟨by norm_num, rfl, show (-1 : Int) ≠ a by omega,
       fun j hj => absurd hj (Nat.not_lt_zero j)⟩)]
    show ((a, (0 : Int) + 1) :: [((-1 : Int), (-1 : Int))], Status.MISS) = _
    norm_num
  have e2 : accessSet [(a, (1 : Int)), ((-1 : Int), (-1 : Int))] b true
      = ([(a, 2), (b, 1)], Status.MISS) := by
    rw [accessSet_eq_of_fill _ _ _ 1 ((scanSet_some_false_iff b
      [(a, (1 : Int)), ((-1 : Int), (-1 : Int))] 1).mpr
      ⟨by norm_num, rfl, show (-1 : Int) ≠ b by omega,
       fun j hj => by
         have hj0 : j = 0 := by omega
         subst hj0
         exact ⟨show a ≠ b from hab, show a ≠ -1 by omega⟩⟩)]
    show ((a, (1 : Int) + 1) :: [(b, (0 : Int) + 1)], Status.MISS) = _
    norm_num
  have e3 : accessSet [(a, (2 : Int)), (b, (1 : Int))] a true
      = ([(a, 1), (b, 2)], Status.HIT) := by
    rw [accessSet_eq_of_match _ _ _ 0 ((scanSet_some_true_iff a
      [(a, (2 : Int)), (b, (1 : Int))] 0).mpr
      ⟨by norm_num, rfl, fun j hj => absurd hj (Nat.not_lt_zero j)⟩)]
    show ((a, (0 : Int) + 1) :: [(b, (1 : Int) + 1)], Status.HIT) = _
    norm_num
  have e4 : accessSet [(a, (1 : Int)), (b, (2 : Int))] c true
      = ([(a, 2), (c, 1)], Status.MISS) := by
    have hnone : scanSet c [(a, (1 : Int)), (b, (2 : Int))] = none :=
      (scanSet_none_iff c [(a, (1 : Int)), (b, (2 : Int))]).mpr (fun j hj => by
        have hj01 : j = 0 ∨ j = 1 := by
          simp at hj
          omega
        rcases hj01 with hj0 | hj1
        · subst hj0
          exact ⟨show a ≠ c from hac, show a ≠ -1 by omega⟩
        · subst hj1
          exact ⟨show b ≠ c from hbc, show b ≠ -1 by omega⟩)
    have hlru : lruIndex [(a, (1 : Int)), (b, (2 : Int))] = 1 := by
      show lruScan [(a, (1 : Int)), (b, (2 : Int))] (-1) 0 0 = 1
      rw [lruScan_cons, if_pos (show (-1 : Int) < 1 by norm_num)]
      rw [lruScan_cons, if_pos (show (1 : Int) < 2 by norm_num)]
      rfl
    rw [accessSet_eq_of_full _ _ _ hnone, hlru]
    show ((a, (1 : Int) + 1) :: [(c, (0 : Int) + 1)], Status.MISS) = _
    norm_num
  have k1 := step _ _ a _ e1
  have k2 := step _ _ b _ e2
  have k3 := step _ _ a _ e3
  have k4 := step _ _ c _ e4
  have w4 : runLoads ⟨2, 2, 1⟩ [[(a, (1 : Int)), (b, (2 : Int))]] [c]
      = ([[(a, 2), (c, 1)]], [Status.MISS]) := by
    rw [runLoads_cons, k4]
    rfl
  have w3 : runLoads ⟨2, 2, 1⟩ [[(a, (2 : Int)), (b, (1 : Int))]] [a, c]
      = ([[(a, 2), (c, 1)]], [Status.HIT, Status.MISS]) := by
    rw [runLoads_cons, k3]
    show ((runLoads ⟨2, 2, 1⟩ [[(a, (1 : Int)), (b, (2 : Int))]] [c]).1,
      Status.HIT :: (runLoads ⟨2, 2, 1⟩ [[(a, (1 : Int)), (b, (2 : Int))]] [c]).2) = _
    rw [w4]
  have w3p : runLoads ⟨2, 2, 1⟩ [[(a, (2 : Int)), (b, (1 : Int))]] [a]
      = ([[(a, 1), (b, 2)]], [Status.HIT]) := by
    rw [runLoads_cons, k3]
    rfl
  have w2 : runLoads ⟨2, 2, 1⟩ [[(a, (1 : Int)), ((-1 : Int), (-1 : Int))]] [b, a, c]
      = ([[(a, 2), (c, 1)]], [Status.MISS, Status.HIT, Status.MISS]) := by
    rw [runLoads_cons, k2]
    show ((runLoads ⟨2, 2, 1⟩ [[(a, (2 : Int)), (b, (1 : Int))]] [a, c]).1,
      Status.MISS :: (runLoads ⟨2, 2, 1⟩ [[(a, (2 : Int)), (b, (1 : Int))]] [a, c]).2) = _
    rw [w3]
  have w2p : runLoads ⟨2, 2, 1⟩ [[(a, (1 : Int)), ((-1 : Int), (-1 : Int))]] [b, a]
      = ([[(a, 1), (b, 2)]], [Status.MISS, Status.HIT]) := by
    rw [runLoads_cons, k2]
    show ((runLoads ⟨2, 2, 1⟩ [[(a, (2 : Int)), (b, (1 : Int))]] [a]).1,
      Status.MISS :: (runLoads ⟨2, 2, 1⟩ [[(a, (2 : Int)), (b, (1 : Int))]] [a]).2) = _
    rw [w3p]
  have hinit : initCache ⟨2, 2, 1⟩
      = [[((-1 : Int), (-1 : Int)), ((-1 : Int), (-1 : Int))]] := rfl
  have wAll : runLoads ⟨2, 2, 1⟩ (initCache ⟨2, 2, 1⟩) [a, b, a, c]
      = ([[(a, 2), (c, 1)]], [Status.MISS, Status.MISS, Status.HIT, Status.MISS]) := by
    rw [hinit, runLoads_cons, k1]
    show ((runLoads ⟨2, 2, 1⟩ [[(a, (1 : Int)), ((-1 : Int), (-1 : Int))]] [b, a, c]).1,
      Status.MISS
        :: (runLoads ⟨2, 2, 1⟩ [[(a, (1 : Int)), ((-1 : Int), (-1 : Int))]] [b, a, c]).2) = _
    rw [w2]
  have wPre : runLoads ⟨2, 2, 1⟩ (initCache ⟨2, 2, 1⟩) [a, b, a]
      = ([[(a, 1), (b, 2)]], [Status.MISS, Status.MISS, Status.HIT]) := by
    rw [hinit, runLoads_cons, k1]
    show ((runLoads ⟨2, 2, 1⟩ [[(a, (1 : Int)), ((-1 : Int), (-1 : Int))]] [b, a]).1,
      Status.MISS
        :: (runLoads ⟨2, 2, 1⟩ [[(a, (1 : Int)), ((-1 : Int), (-1 : Int))]] [b, a]).2) = _
    rw [w2p]
  refine ⟨by rw [wAll], by rw [wPre], by rw [wAll], rfl, ?_⟩
  show b / 1 / 1 = b
  omega

theorem c5_scenario_witness :
    (runLoads ⟨2, 2, 1⟩ (initCache ⟨2, 2, 1⟩) [10, 20, 10, 30]).2
      = [Status.MISS, Status.MISS, Status.HIT, Status.MISS]
    ∧ (runLoads ⟨2, 2, 1⟩ (initCache ⟨2, 2, 1⟩) [10, 20, 10, 30]).1
      = [[(10, 2), (30, 1)]] :=
  ⟨(c5_lru_scenario_abac 10 20 30 (by decide) (by decide) (by decide) (by decide)
      (by decide) (by decide)).1,
   (c5_lru_scenario_abac 10 20 30 (by decide) (by decide) (by decide) (by decide)
      (by decide) (by decide)).2.2.1⟩

end Simcache
